import Mathlib

/-!
Verification of the SstFileWriter fuzz harness
(`src/fuzz/sst_file_writer_fuzzer.cc`).

The development shallowly embeds:
  * the protobuf operation model (`DBOperation`, `OpType`),
  * the byte-wise key comparator,
  * the registered libprotobuf-mutator post-processor ("Normalizer"):
    `std::sort` by key, `std::unique` on key equality, `erase` of the tail,
  * the `DEFINE_PROTO_FUZZER` body as a function from an environment of
    external-call statuses to an outcome plus a trace of external effects.

`std::sort` gives no stability guarantee, so the sorting step is embedded
relationally: any permutation of the input that satisfies `is_sorted` with
the comparison lambda is an admissible result.
-/

namespace SstFuzz

/-- Modelled from the spec: the operation-type enum of the protobuf schema
(`proto/db_operation.proto`, not under `src/`): variants PUT, MERGE, DELETE,
DELETE_RANGE, plus unrecognized numeric variants (`OTHER`). -/
inductive OpType where
  | PUT
  | MERGE
  | DELETE
  | DELETE_RANGE
  | OTHER (n : Nat)
deriving DecidableEq, Repr

/-- Modelled from the spec: one protobuf `DBOperation`
(`proto/db_operation.proto`, not under `src/`): a `type`, a `key` byte
sequence and a `value` byte sequence. -/
structure DBOperation where
  type : OpType
  key : List Nat
  value : List Nat
deriving DecidableEq, Repr

/-- Modelled from the spec: `rocksdb::BytewiseComparator()` (its
implementation is repository code outside `src/`): byte-wise lexicographic
comparison of byte sequences, a strict prefix comparing smaller
(memcmp on the common prefix, then by length). -/
def bytewiseCompare : List Nat → List Nat → Ordering
  | [], [] => Ordering.eq
  | [], _ :: _ => Ordering.lt
  | _ :: _, [] => Ordering.gt
  | a :: as, b :: bs =>
    if a < b then Ordering.lt
    else if b < a then Ordering.gt
    else bytewiseCompare as bs

theorem bytewiseCompare_eq_iff (a : List Nat) :
    ∀ b, bytewiseCompare a b = Ordering.eq ↔ a = b := by
  induction a with
  | nil => intro b; cases b <;> simp [bytewiseCompare]
  | cons x xs ih =>
    intro b
    cases b with
    | nil => simp [bytewiseCompare]
    | cons y ys =>
      simp only [bytewiseCompare]
      by_cases h1 : x < y
      · simp only [if_pos h1]
        constructor
        · intro h; exact absurd h (by decide)
        · intro h
          injection h with hxy _
          omega
      · simp only [if_neg h1]
        by_cases h2 : y < x
        · simp only [if_pos h2]
          constructor
          · intro h; exact absurd h (by decide)
          · intro h
            injection h with hxy _
            omega
        · have hxy : x = y := by omega
          simp [if_neg h2, hxy, ih ys]

theorem bytewiseCompare_refl (a : List Nat) : bytewiseCompare a a = Ordering.eq :=
  (bytewiseCompare_eq_iff a a).mpr rfl

theorem bytewiseCompare_swap (a : List Nat) :
    ∀ b, (bytewiseCompare a b).swap = bytewiseCompare b a := by
  induction a with
  | nil => intro b; cases b <;> simp [bytewiseCompare, Ordering.swap]
  | cons x xs ih =>
    intro b
    cases b with
    | nil => simp [bytewiseCompare, Ordering.swap]
    | cons y ys =>
      simp only [bytewiseCompare]
      by_cases h1 : x < y
      · have h2 : ¬ y < x := by omega
        simp [if_pos h1, if_neg h2, Ordering.swap]
      · by_cases h2 : y < x
        · simp [if_neg h1, if_pos h2, Ordering.swap]
        · simp [if_neg h1, if_neg h2, ih ys]

theorem bytewiseCompare_gt_iff_lt (a b : List Nat) :
    bytewiseCompare a b = Ordering.gt ↔ bytewiseCompare b a = Ordering.lt := by
  rw [← bytewiseCompare_swap b a]
  cases bytewiseCompare b a <;> simp [Ordering.swap]

theorem bytewiseCompare_lt_trans (a : List Nat) :
    ∀ b c, bytewiseCompare a b = Ordering.lt → bytewiseCompare b c = Ordering.lt →
      bytewiseCompare a c = Ordering.lt := by
  induction a with
  | nil =>
    intro b c h1 h2
    cases c with
    | nil =>
      cases b with
      | nil => simp [bytewiseCompare] at h1
      | cons y ys => simp [bytewiseCompare] at h2
    | cons z zs => simp [bytewiseCompare]
  | cons x xs ih =>
    intro b c h1 h2
    cases b with
    | nil => simp [bytewiseCompare] at h1
    | cons y ys =>
      cases c with
      | nil => simp [bytewiseCompare] at h2
      | cons z zs =>
        simp only [bytewiseCompare] at h1 h2 ⊢
        by_cases hxy : x < y
        · by_cases hyz : y < z
          · simp [show x < z by omega]
          · have h2' := h2
            simp only [if_neg hyz] at h2'
            by_cases hzy : z < y
            · simp [if_pos hzy] at h2'
            · have : y = z := by omega
              simp [show x < z by omega]
        · simp only [if_neg hxy] at h1
          by_cases hyx : y < x
          · simp [if_pos hyx] at h1
          · simp only [if_neg hyx] at h1
            have hxy' : x = y := by omega
            by_cases hyz : y < z
            · simp [show x < z by omega]
            · simp only [if_neg hyz] at h2
              by_cases hzy : z < y
              · simp [if_pos hzy] at h2
              · simp only [if_neg hzy] at h2
                have hxz : ¬ x < z := by omega
                have hzx : ¬ z < x := by omega
                simp [if_neg hxz, if_neg hzx, ih ys zs h1 h2]

theorem bytewiseCompare_ne_gt_iff (a b : List Nat) :
    bytewiseCompare a b ≠ Ordering.gt ↔ (bytewiseCompare a b = Ordering.lt ∨ a = b) := by
  rcases h : bytewiseCompare a b with _ | _ | _
  · simp [← bytewiseCompare_eq_iff a b, h]
  · simp [← bytewiseCompare_eq_iff a b, h]
  · simp only [ne_eq, not_true_eq_false, false_iff]
    rintro (h' | rfl)
    · exact absurd h' (by decide)
    · rw [bytewiseCompare_refl] at h
      exact absurd h (by decide)

/-! ### The Normalizer (post-processor registered at src lines 18-33) -/

/-- The comparison lambda passed to `std::sort` (src lines 23-25):
`comparator->Compare(a.key(), b.key()) < 0`. -/
def sortLT (a b : DBOperation) : Prop :=
  bytewiseCompare a.key b.key = Ordering.lt

instance (a b : DBOperation) : Decidable (sortLT a b) :=
  inferInstanceAs (Decidable (bytewiseCompare a.key b.key = Ordering.lt))

/-- The `is_sorted` relation `std::sort` guarantees between consecutive
elements of its output: the successor never compares less than its
predecessor under the comparison lambda. -/
def sortLE (a b : DBOperation) : Prop := ¬ sortLT b a

instance (a b : DBOperation) : Decidable (sortLE a b) :=
  inferInstanceAs (Decidable (¬ sortLT b a))

/-- The equality lambda passed to `std::unique` (src lines 29-31):
`comparator->Compare(a.key(), b.key()) == 0`. -/
def keyEq (a b : DBOperation) : Prop :=
  bytewiseCompare a.key b.key = Ordering.eq

instance (a b : DBOperation) : Decidable (keyEq a b) :=
  inferInstanceAs (Decidable (bytewiseCompare a.key b.key = Ordering.eq))

/-- Helper for `dedupAdj`: `prev` is the last element kept so far
(`*result` in `std::unique`); an element equivalent to it is dropped,
otherwise it becomes the new last kept element. -/
def dedupAdjAux (prev : DBOperation) : List DBOperation → List DBOperation
  | [] => []
  | b :: rest =>
    if keyEq prev b then dedupAdjAux prev rest
    else b :: dedupAdjAux b rest

/-- `std::unique` with the key-equality lambda followed by `erase` of the
trailing garbage (src lines 27-32): keeps the first element of each run of
consecutively key-equal elements. -/
def dedupAdj : List DBOperation → List DBOperation
  | [] => []
  | a :: rest => a :: dedupAdjAux a rest

/-- `std::sort(ops->begin(), ops->end(), lambda)` (src lines 22-25),
embedded relationally since `std::sort` is not stable: any permutation of
the input that is sorted w.r.t. the comparison lambda is admissible. -/
def sortRel (input s : List DBOperation) : Prop :=
  s.Perm input ∧ List.Chain' sortLE s

/-- The whole post-processor body (src lines 19-32): sort, then
`std::unique` + `erase`. -/
def normalizeRel (input out : List DBOperation) : Prop :=
  ∃ s, sortRel input s ∧ out = dedupAdj s

/-- The registered post-processor lambda with its (never read) `seed`
parameter, exactly as registered at src lines 18-19:
`[](DBOperations* input, unsigned int /* seed */)`. -/
def postProcess (input : List DBOperation) (_seed : Nat) (out : List DBOperation) : Prop :=
  normalizeRel input out

/-- Claim C2 as stated: each operation retained by the Normalizer equals
the first operation, in original input order, bearing its key. -/
def normalizerKeepsFirstOccurrence : Prop :=
  ∀ input out, normalizeRel input out →
    ∀ x ∈ out, input.find? (fun y => decide (y.key = x.key)) = some x

/-! ### The fuzzer body (src lines 35-101) -/

/-- Observable external effects of one fuzzer iteration, in program order. -/
inductive Event where
  | getTestDirectory
  | writerOpen (path : String)
  | put (key value : List Nat)
  | merge (key value : List Nat)
  | del (key : List Nat)
  | deleteRange (startKey endKey : List Nat)
  | finish
  | readerOpen (path : String)
  | verifyChecksum
  | removeFile (path : String)
  | logError
  | logUnsupported (t : OpType)
deriving DecidableEq, Repr

/-- Results of the consumed external capabilities for one iteration: each
call site reports success (`true`) or a failure status (`false`); the
status of the i-th replay call (`Put`/`Merge`/`Delete`/`DeleteRange`) is
`opOk i`. `dir` is the string `GetTestDirectory` yields. -/
structure Env where
  getDirOk : Bool
  dir : String
  writerOpenOk : Bool
  opOk : Nat → Bool
  finishOk : Bool
  readerOpenOk : Bool
  verifyOk : Bool

/-- How one iteration of the fuzzer body ends: a normal `return`, or
`abort()` of the process. -/
inductive Outcome where
  | returned
  | aborted
deriving DecidableEq, Repr

/-- How the replay loop (src lines 65-87) ends: fell off the loop, hit a
failing status (`abort()`), or hit an unsupported type (`return`). -/
inductive ReplayOut where
  | ok
  | aborted
  | earlyRet
deriving DecidableEq, Repr

/-- The `CHECK_OK` macro (src lines 35-39): on a failing status print the
status detail and `abort()`; otherwise fall through. -/
def CHECK_OK (ok : Bool) (tr : List Event)
    (k : List Event → Outcome × List Event) : Outcome × List Event :=
  if ok then k tr else (Outcome.aborted, tr ++ [Event.logError])

/-- The replay loop (src lines 65-87): dispatch each operation by type to
the corresponding writer call and `CHECK_OK` its status; an unrecognized
type is logged and returns from the fuzzer body. -/
def replayOps (env : Env) : List DBOperation → Nat → ReplayOut × List Event
  | [], _ => (ReplayOut.ok, [])
  | op :: rest, i =>
    match op.type with
    | OpType.PUT =>
        if env.opOk i then
          let r := replayOps env rest (i + 1)
          (r.1, Event.put op.key op.value :: r.2)
        else (ReplayOut.aborted, [Event.put op.key op.value, Event.logError])
    | OpType.MERGE =>
        if env.opOk i then
          let r := replayOps env rest (i + 1)
          (r.1, Event.merge op.key op.value :: r.2)
        else (ReplayOut.aborted, [Event.merge op.key op.value, Event.logError])
    | OpType.DELETE =>
        if env.opOk i then
          let r := replayOps env rest (i + 1)
          (r.1, Event.del op.key :: r.2)
        else (ReplayOut.aborted, [Event.del op.key, Event.logError])
    | OpType.DELETE_RANGE =>
        if env.opOk i then
          let r := replayOps env rest (i + 1)
          (r.1, Event.deleteRange op.key op.value :: r.2)
        else (ReplayOut.aborted,
          [Event.deleteRange op.key op.value, Event.logError])
    | OpType.OTHER n =>
        (ReplayOut.earlyRet, [Event.logUnsupported (OpType.OTHER n)])

/-- The artifact path (src line 56): `dir + "/SstFileWriterFuzzer.sst"`. -/
def sstPath (env : Env) : String := env.dir ++ "/SstFileWriterFuzzer.sst"

/-- The `DEFINE_PROTO_FUZZER` body (src lines 44-101): empty-input check,
temporary-directory lookup, writer open, replay loop, finish, reader open,
checksum verification, artifact removal, each status checked by
`CHECK_OK`. -/
def fuzzerBody (env : Env) (input : List DBOperation) : Outcome × List Event :=
  if input.isEmpty then (Outcome.returned, [])
  else
    CHECK_OK env.getDirOk [Event.getTestDirectory] fun tr1 =>
    CHECK_OK env.writerOpenOk (tr1 ++ [Event.writerOpen (sstPath env)]) fun tr2 =>
    match (replayOps env input 0).1 with
    | ReplayOut.aborted => (Outcome.aborted, tr2 ++ (replayOps env input 0).2)
    | ReplayOut.earlyRet => (Outcome.returned, tr2 ++ (replayOps env input 0).2)
    | ReplayOut.ok =>
      CHECK_OK env.finishOk (tr2 ++ (replayOps env input 0).2 ++ [Event.finish]) fun tr3 =>
      CHECK_OK env.readerOpenOk (tr3 ++ [Event.readerOpen (sstPath env)]) fun tr4 =>
      CHECK_OK env.verifyOk (tr4 ++ [Event.verifyChecksum]) fun tr5 =>
      (Outcome.returned, tr5 ++ [Event.removeFile (sstPath env)])

/-- Whether an operation type is handled by the switch (src lines 66-85). -/
def supported : OpType → Bool
  | OpType.PUT => true
  | OpType.MERGE => true
  | OpType.DELETE => true
  | OpType.DELETE_RANGE => true
  | OpType.OTHER _ => false

/-- The writer call the switch performs for an operation of each type. -/
def opEvent (op : DBOperation) : Event :=
  match op.type with
  | OpType.PUT => Event.put op.key op.value
  | OpType.MERGE => Event.merge op.key op.value
  | OpType.DELETE => Event.del op.key
  | OpType.DELETE_RANGE => Event.deleteRange op.key op.value
  | OpType.OTHER n => Event.logUnsupported (OpType.OTHER n)

/-- Every consumed capability reports success. -/
def Env.allOk (env : Env) : Prop :=
  env.getDirOk = true ∧ env.writerOpenOk = true ∧ (∀ i, env.opOk i = true) ∧
    env.finishOk = true ∧ env.readerOpenOk = true ∧ env.verifyOk = true

/-- A concrete environment in which every consumed capability succeeds. -/
def envOk : Env :=
  ⟨true, "tmp", true, fun _ => true, true, true, true⟩

theorem keyEq_iff (a b : DBOperation) : keyEq a b ↔ a.key = b.key :=
  bytewiseCompare_eq_iff a.key b.key

theorem sortLT_trans {a b c : DBOperation} :
    sortLT a b → sortLT b c → sortLT a c :=
  bytewiseCompare_lt_trans a.key b.key c.key

theorem sortLE_iff (a b : DBOperation) :
    sortLE a b ↔ sortLT a b ∨ a.key = b.key := by
  unfold sortLE sortLT
  rw [← bytewiseCompare_gt_iff_lt]
  exact bytewiseCompare_ne_gt_iff a.key b.key

theorem sortLE_trans {a b c : DBOperation} :
    sortLE a b → sortLE b c → sortLE a c := by
  rw [sortLE_iff, sortLE_iff, sortLE_iff]
  rintro (h1 | h1) (h2 | h2)
  · exact Or.inl (sortLT_trans h1 h2)
  · exact Or.inl (by unfold sortLT; rw [← h2]; exact h1)
  · exact Or.inl (by unfold sortLT; rw [h1]; exact h2)
  · exact Or.inr (h1.trans h2)

theorem not_keyEq_of_sortLT {a b : DBOperation} : sortLT a b → ¬ keyEq a b := by
  intro h1 h2
  unfold sortLT at h1
  unfold keyEq at h2
  rw [h1] at h2
  exact absurd h2 (by decide)

theorem sortLT_of_le_ne {a b : DBOperation} (h : sortLE a b) (hne : ¬ keyEq a b) :
    sortLT a b := by
  rcases (sortLE_iff a b).mp h with h' | h'
  · exact h'
  · exact absurd ((keyEq_iff a b).mpr h') hne

theorem chain'_le_head :
    ∀ (l : List DBOperation) (a b : DBOperation),
      List.Chain' sortLE (a :: l) → b ∈ l → sortLE a b := by
  intro l
  induction l with
  | nil => intro a b _ hb; exact absurd hb (by simp)
  | cons c l' ih =>
    intro a b hch hb
    rw [List.chain'_cons] at hch
    rcases List.mem_cons.mp hb with rfl | hb'
    · exact hch.1
    · exact sortLE_trans hch.1 (ih c b hch.2 hb')

theorem chain'_lt_head :
    ∀ (l : List DBOperation) (a b : DBOperation),
      List.Chain' sortLT (a :: l) → b ∈ l → sortLT a b := by
  intro l
  induction l with
  | nil => intro a b _ hb; exact absurd hb (by simp)
  | cons c l' ih =>
    intro a b hch hb
    rw [List.chain'_cons] at hch
    rcases List.mem_cons.mp hb with rfl | hb'
    · exact hch.1
    · exact sortLT_trans hch.1 (ih c b hch.2 hb')

theorem chain'_le_congr_head (a b : DBOperation) (l : List DBOperation)
    (hk : a.key = b.key) (h : List.Chain' sortLE (b :: l)) :
    List.Chain' sortLE (a :: l) := by
  cases l with
  | nil => exact List.chain'_singleton a
  | cons c l' =>
    rw [List.chain'_cons] at h ⊢
    refine ⟨?_, h.2⟩
    unfold sortLE sortLT
    rw [hk]
    exact h.1

theorem dedupAdjAux_strict :
    ∀ (l : List DBOperation) (prev : DBOperation),
      List.Chain' sortLE (prev :: l) →
      List.Chain' sortLT (prev :: dedupAdjAux prev l) := by
  intro l
  induction l with
  | nil => intro prev _; exact List.chain'_singleton prev
  | cons b rest ih =>
    intro prev h
    rw [List.chain'_cons] at h
    unfold dedupAdjAux
    by_cases he : keyEq prev b
    · rw [if_pos he]
      exact ih prev (chain'_le_congr_head prev b rest ((keyEq_iff prev b).mp he) h.2)
    · rw [if_neg he]
      rw [List.chain'_cons]
      exact ⟨sortLT_of_le_ne h.1 he, ih b h.2⟩

theorem dedupAdjAux_of_strict :
    ∀ (l : List DBOperation) (prev : DBOperation),
      List.Chain' sortLT (prev :: l) → dedupAdjAux prev l = l := by
  intro l
  induction l with
  | nil => intro prev _; rfl
  | cons b rest ih =>
    intro prev h
    rw [List.chain'_cons] at h
    unfold dedupAdjAux
    rw [if_neg (not_keyEq_of_sortLT h.1)]
    rw [ih b h.2]

theorem dedupAdj_of_strict (l : List DBOperation)
    (h : List.Chain' sortLT l) : dedupAdj l = l := by
  cases l with
  | nil => rfl
  | cons a rest =>
    show a :: dedupAdjAux a rest = a :: rest
    rw [dedupAdjAux_of_strict rest a h]

theorem mem_of_mem_dedupAdjAux :
    ∀ (l : List DBOperation) (prev x : DBOperation),
      x ∈ dedupAdjAux prev l → x ∈ l := by
  intro l
  induction l with
  | nil => intro prev x hx; exact absurd hx (by simp [dedupAdjAux])
  | cons b rest ih =>
    intro prev x hx
    unfold dedupAdjAux at hx
    by_cases he : keyEq prev b
    · rw [if_pos he] at hx
      exact List.mem_cons_of_mem b (ih prev x hx)
    · rw [if_neg he] at hx
      rcases List.mem_cons.mp hx with rfl | hx'
      · exact List.mem_cons_self x rest
      · exact List.mem_cons_of_mem b (ih b x hx')

theorem mem_of_mem_dedupAdj (l : List DBOperation) (x : DBOperation)
    (hx : x ∈ dedupAdj l) : x ∈ l := by
  cases l with
  | nil => exact absurd hx (by simp [dedupAdj])
  | cons a rest =>
    unfold dedupAdj at hx
    rcases List.mem_cons.mp hx with rfl | hx'
    · exact List.mem_cons_self x rest
    · exact List.mem_cons_of_mem a (mem_of_mem_dedupAdjAux rest a x hx')

theorem dedupAdjAux_key_mem :
    ∀ (l : List DBOperation) (prev y : DBOperation), y ∈ l →
      ∃ x, x ∈ prev :: dedupAdjAux prev l ∧ x.key = y.key := by
  intro l
  induction l with
  | nil => intro prev y hy; exact absurd hy (by simp)
  | cons b rest ih =>
    intro prev y hy
    unfold dedupAdjAux
    by_cases he : keyEq prev b
    · rw [if_pos he]
      rcases List.mem_cons.mp hy with rfl | hy'
      · exact ⟨prev, List.mem_cons_self prev _, (keyEq_iff prev y).mp he⟩
      · exact ih prev y hy'
    · rw [if_neg he]
      rcases List.mem_cons.mp hy with rfl | hy'
      · exact ⟨y, List.mem_cons_of_mem prev (List.mem_cons_self y _), rfl⟩
      · obtain ⟨x, hx, hk⟩ := ih b y hy'
        rcases List.mem_cons.mp hx with rfl | hx'
        · exact ⟨x, List.mem_cons_of_mem prev (List.mem_cons_self x _), hk⟩
        · exact ⟨x, List.mem_cons_of_mem prev (List.mem_cons_of_mem b hx'), hk⟩

theorem dedupAdj_key_mem (l : List DBOperation) (y : DBOperation)
    (hy : y ∈ l) : ∃ x, x ∈ dedupAdj l ∧ x.key = y.key := by
  cases l with
  | nil => exact absurd hy (by simp)
  | cons a rest =>
    unfold dedupAdj
    rcases List.mem_cons.mp hy with rfl | hy'
    · exact ⟨y, List.mem_cons_self y _, rfl⟩
    · exact dedupAdjAux_key_mem rest a y hy'

theorem sorted_perm_eq :
    ∀ (S T : List DBOperation), T.Perm S →
      List.Chain' sortLE T → List.Chain' sortLT S → T = S := by
  intro S
  induction S with
  | nil => intro T hp _ _; exact hp.eq_nil
  | cons a S' ih =>
    intro T hp hT hS
    cases T with
    | nil => exact absurd hp.symm.eq_nil (by simp)
    | cons t T' =>
      by_cases hta : t = a
      · subst hta
        have hp' : T'.Perm S' := hp.cons_inv
        rw [ih T' hp' hT.tail hS.tail]
      · have htmem : t ∈ a :: S' := hp.subset (List.mem_cons_self t T')
        have hamem : a ∈ t :: T' := hp.symm.subset (List.mem_cons_self a S')
        have htS' : t ∈ S' := by
          rcases List.mem_cons.mp htmem with h | h
          · exact absurd h hta
          · exact h
        have haT' : a ∈ T' := by
          rcases List.mem_cons.mp hamem with h | h
          · exact absurd h.symm hta
          · exact h
        have h1 : sortLE t a := chain'_le_head T' t a hT haT'
        have h2 : sortLT a t := chain'_lt_head S' a t hS htS'
        exact absurd h2 h1

theorem chain'_le_pair (a b : DBOperation) (h : sortLE a b) :
    List.Chain' sortLE [a, b] :=
  List.chain'_cons.mpr ⟨h, List.chain'_singleton b⟩

theorem chain'_le_triple (a b c : DBOperation) (h1 : sortLE a b) (h2 : sortLE b c) :
    List.Chain' sortLE [a, b, c] :=
  List.chain'_cons.mpr ⟨h1, chain'_le_pair b c h2⟩

theorem normalizeRel_chain_lt {input out : List DBOperation}
    (h : normalizeRel input out) : List.Chain' sortLT out := by
  obtain ⟨s, ⟨hp, hs⟩, rfl⟩ := h
  cases s with
  | nil => simp [dedupAdj]
  | cons a rest => exact dedupAdjAux_strict rest a hs

theorem chain'_lt_pairwise_ne :
    ∀ (l : List DBOperation), List.Chain' sortLT l →
      List.Pairwise (fun a b => a.key ≠ b.key) l := by
  intro l
  induction l with
  | nil => intro _; simp
  | cons a rest ih =>
    intro h
    rw [List.pairwise_cons]
    refine ⟨fun b hb hk => ?_, ih h.tail⟩
    exact not_keyEq_of_sortLT (chain'_lt_head rest a b h hb) ((keyEq_iff a b).mpr hk)

/-- **C1.** After the registered post-processor runs, the keys of adjacent
operations are strictly ascending under the byte-wise comparator
(`compare(op_i.key, op_{i+1}.key) < 0` for every adjacent pair), so all
keys across the output sequence are distinct. -/
theorem normalize_strictly_ascending (input out : List DBOperation)
    (h : normalizeRel input out) :
    List.Chain' sortLT out ∧ List.Pairwise (fun a b => a.key ≠ b.key) out :=
  ⟨normalizeRel_chain_lt h, chain'_lt_pairwise_ne out (normalizeRel_chain_lt h)⟩

theorem normalize_strictly_ascending_witness :
    normalizeRel
      [(⟨OpType.PUT, [3], [4]⟩ : DBOperation), ⟨OpType.PUT, [1], [2]⟩, ⟨OpType.PUT, [1], [2]⟩]
      [(⟨OpType.PUT, [1], [2]⟩ : DBOperation), ⟨OpType.PUT, [3], [4]⟩] ∧
    (List.Chain' sortLT
        [(⟨OpType.PUT, [1], [2]⟩ : DBOperation), ⟨OpType.PUT, [3], [4]⟩] ∧
      List.Pairwise (fun a b => a.key ≠ b.key)
        [(⟨OpType.PUT, [1], [2]⟩ : DBOperation), ⟨OpType.PUT, [3], [4]⟩]) := by
  have hrel : normalizeRel
      [(⟨OpType.PUT, [3], [4]⟩ : DBOperation), ⟨OpType.PUT, [1], [2]⟩, ⟨OpType.PUT, [1], [2]⟩]
      [(⟨OpType.PUT, [1], [2]⟩ : DBOperation), ⟨OpType.PUT, [3], [4]⟩] := by
    refine ⟨[⟨OpType.PUT, [1], [2]⟩, ⟨OpType.PUT, [1], [2]⟩, ⟨OpType.PUT, [3], [4]⟩],
      ⟨?_, chain'_le_triple _ _ _ (by decide) (by decide)⟩, by decide⟩
    decide
  exact ⟨hrel, normalize_strictly_ascending _ _ hrel⟩

/-- **C2, counterexample.** The post-processor uses `std::sort`, which is
not stable: for the input `[PUT([97],[49]), PUT([97],[50])]` (equal keys)
the sorted permutation `[PUT([97],[50]), PUT([97],[49])]` is an admissible
`std::sort` result, and `std::unique` then keeps `PUT([97],[50])`, whose
payload differs from the first occurrence of key `[97]` in input order. -/
theorem normalizer_first_occurrence_cex : ¬ normalizerKeepsFirstOccurrence := by
  intro h
  have hrel : normalizeRel
      [(⟨OpType.PUT, [97], [49]⟩ : DBOperation), ⟨OpType.PUT, [97], [50]⟩]
      [(⟨OpType.PUT, [97], [50]⟩ : DBOperation)] := by
    refine ⟨[⟨OpType.PUT, [97], [50]⟩, ⟨OpType.PUT, [97], [49]⟩],
      ⟨?_, chain'_le_pair _ _ (by decide)⟩, by decide⟩
    decide
  have := h _ _ hrel ⟨OpType.PUT, [97], [50]⟩ (by decide)
  exact absurd this (by decide)

/-- **C2 (amended).** Content preservation without the stability clause:
every operation retained by the post-processor is one of the input
operations (its type and payload are those of some input occurrence of its
key — which occurrence is unspecified, since `std::sort` is not stable),
and every key present in the input is represented in the output. -/
theorem normalize_content_preservation (input out : List DBOperation)
    (h : normalizeRel input out) :
    (∀ x ∈ out, x ∈ input) ∧ (∀ y ∈ input, ∃ x, x ∈ out ∧ x.key = y.key) := by
  obtain ⟨s, ⟨hp, hs⟩, rfl⟩ := h
  constructor
  · intro x hx
    exact hp.subset (mem_of_mem_dedupAdj s x hx)
  · intro y hy
    exact dedupAdj_key_mem s y (hp.symm.subset hy)

theorem normalize_content_preservation_witness :
    normalizeRel
      [(⟨OpType.PUT, [97], [49]⟩ : DBOperation), ⟨OpType.MERGE, [98], [50]⟩]
      [(⟨OpType.PUT, [97], [49]⟩ : DBOperation), ⟨OpType.MERGE, [98], [50]⟩] ∧
    ((∀ x ∈ [(⟨OpType.PUT, [97], [49]⟩ : DBOperation), ⟨OpType.MERGE, [98], [50]⟩],
        x ∈ [(⟨OpType.PUT, [97], [49]⟩ : DBOperation), ⟨OpType.MERGE, [98], [50]⟩]) ∧
      (∀ y ∈ [(⟨OpType.PUT, [97], [49]⟩ : DBOperation), ⟨OpType.MERGE, [98], [50]⟩],
        ∃ x, x ∈ [(⟨OpType.PUT, [97], [49]⟩ : DBOperation), ⟨OpType.MERGE, [98], [50]⟩] ∧
          x.key = y.key)) := by
  have hrel : normalizeRel
      [(⟨OpType.PUT, [97], [49]⟩ : DBOperation), ⟨OpType.MERGE, [98], [50]⟩]
      [(⟨OpType.PUT, [97], [49]⟩ : DBOperation), ⟨OpType.MERGE, [98], [50]⟩] :=
    ⟨[⟨OpType.PUT, [97], [49]⟩, ⟨OpType.MERGE, [98], [50]⟩],
      ⟨List.Perm.refl _, chain'_le_pair _ _ (by decide)⟩, by decide⟩
  exact ⟨hrel, normalize_content_preservation _ _ hrel⟩

/-- **C3.** The post-processor is idempotent: any admissible result of
running it on an admissible result is that result itself. -/
theorem normalize_idempotent (S S1 S2 : List DBOperation)
    (h1 : normalizeRel S S1) (h2 : normalizeRel S1 S2) : S2 = S1 := by
  have hstrict := normalizeRel_chain_lt h1
  obtain ⟨s, ⟨hp, hs⟩, rfl⟩ := h2
  rw [sorted_perm_eq S1 s hp hs hstrict]
  exact dedupAdj_of_strict S1 hstrict

theorem normalize_idempotent_witness :
    normalizeRel
      [(⟨OpType.DELETE, [2], []⟩ : DBOperation), ⟨OpType.PUT, [1], [9]⟩]
      [(⟨OpType.PUT, [1], [9]⟩ : DBOperation), ⟨OpType.DELETE, [2], []⟩] ∧
    normalizeRel
      [(⟨OpType.PUT, [1], [9]⟩ : DBOperation), ⟨OpType.DELETE, [2], []⟩]
      [(⟨OpType.PUT, [1], [9]⟩ : DBOperation), ⟨OpType.DELETE, [2], []⟩] ∧
    ([(⟨OpType.PUT, [1], [9]⟩ : DBOperation), ⟨OpType.DELETE, [2], []⟩] =
      [(⟨OpType.PUT, [1], [9]⟩ : DBOperation), ⟨OpType.DELETE, [2], []⟩]) := by
  have h1 : normalizeRel
      [(⟨OpType.DELETE, [2], []⟩ : DBOperation), ⟨OpType.PUT, [1], [9]⟩]
      [(⟨OpType.PUT, [1], [9]⟩ : DBOperation), ⟨OpType.DELETE, [2], []⟩] := by
    refine ⟨[⟨OpType.PUT, [1], [9]⟩, ⟨OpType.DELETE, [2], []⟩],
      ⟨?_, chain'_le_pair _ _ (by decide)⟩, by decide⟩
    decide
  have h2 : normalizeRel
      [(⟨OpType.PUT, [1], [9]⟩ : DBOperation), ⟨OpType.DELETE, [2], []⟩]
      [(⟨OpType.PUT, [1], [9]⟩ : DBOperation), ⟨OpType.DELETE, [2], []⟩] :=
    ⟨[⟨OpType.PUT, [1], [9]⟩, ⟨OpType.DELETE, [2], []⟩],
      ⟨List.Perm.refl _, chain'_le_pair _ _ (by decide)⟩, by decide⟩
  exact ⟨h1, h2, normalize_idempotent _ _ _ h1 h2⟩

/-- **C9.** The post-processor never reads its seed parameter: for any two
seeds, the admissible outputs on a given input sequence are identical. -/
theorem postProcess_seed_independent (input out : List DBOperation) (s1 s2 : Nat) :
    postProcess input s1 out ↔ postProcess input s2 out := Iff.rfl

/-! ### Replay-loop lemmas -/

theorem replayOps_logError_iff (env : Env) :
    ∀ (l : List DBOperation) (i : Nat),
      (Event.logError ∈ (replayOps env l i).2 ↔
        (replayOps env l i).1 = ReplayOut.aborted) := by
  intro l
  induction l with
  | nil => intro i; simp [replayOps]
  | cons op rest ih =>
    intro i
    obtain ⟨t, k, v⟩ := op
    cases t <;> by_cases hok : env.opOk i <;>
      simp [replayOps, hok, ih (i + 1)]

theorem replayOps_aborted_trace (env : Env) :
    ∀ (l : List DBOperation) (i : Nat),
      (replayOps env l i).1 = ReplayOut.aborted →
      ∃ p, (replayOps env l i).2 = p ++ [Event.logError] := by
  intro l
  induction l with
  | nil => intro i h; simp [replayOps] at h
  | cons op rest ih =>
    intro i h
    obtain ⟨t, k, v⟩ := op
    cases t with
    | PUT =>
      by_cases hok : env.opOk i
      · simp only [replayOps, hok] at h ⊢
        simp only [if_true] at h ⊢
        obtain ⟨p, hp⟩ := ih (i + 1) h
        exact ⟨Event.put k v :: p, by simp [hp]⟩
      · refine ⟨[Event.put k v], ?_⟩
        simp [replayOps, hok]
    | MERGE =>
      by_cases hok : env.opOk i
      · simp only [replayOps, hok] at h ⊢
        simp only [if_true] at h ⊢
        obtain ⟨p, hp⟩ := ih (i + 1) h
        exact ⟨Event.merge k v :: p, by simp [hp]⟩
      · refine ⟨[Event.merge k v], ?_⟩
        simp [replayOps, hok]
    | DELETE =>
      by_cases hok : env.opOk i
      · simp only [replayOps, hok] at h ⊢
        simp only [if_true] at h ⊢
        obtain ⟨p, hp⟩ := ih (i + 1) h
        exact ⟨Event.del k :: p, by simp [hp]⟩
      · refine ⟨[Event.del k], ?_⟩
        simp [replayOps, hok]
    | DELETE_RANGE =>
      by_cases hok : env.opOk i
      · simp only [replayOps, hok] at h ⊢
        simp only [if_true] at h ⊢
        obtain ⟨p, hp⟩ := ih (i + 1) h
        exact ⟨Event.deleteRange k v :: p, by simp [hp]⟩
      · refine ⟨[Event.deleteRange k v], ?_⟩
        simp [replayOps, hok]
    | OTHER n =>
      simp [replayOps] at h

theorem replayOps_no_tail_events (env : Env) :
    ∀ (l : List DBOperation) (i : Nat),
      Event.getTestDirectory ∉ (replayOps env l i).2 ∧
      (∀ s, Event.writerOpen s ∉ (replayOps env l i).2) ∧
      Event.finish ∉ (replayOps env l i).2 ∧
      (∀ s, Event.readerOpen s ∉ (replayOps env l i).2) ∧
      Event.verifyChecksum ∉ (replayOps env l i).2 ∧
      (∀ s, Event.removeFile s ∉ (replayOps env l i).2) := by
  intro l
  induction l with
  | nil => intro i; simp [replayOps]
  | cons op rest ih =>
    intro i
    obtain ⟨t, k, v⟩ := op
    obtain ⟨h1, h2, h3, h4, h5, h6⟩ := ih (i + 1)
    cases t <;> by_cases hok : env.opOk i <;>
      simp [replayOps, hok, h1, h3, h5] <;>
      exact ⟨fun s => h2 s, fun s => h4 s, fun s => h6 s⟩

theorem replayOps_all_ok (env : Env) (hok : ∀ i, env.opOk i = true) :
    ∀ (l : List DBOperation), (∀ op ∈ l, supported op.type = true) →
      ∀ i, replayOps env l i = (ReplayOut.ok, l.map opEvent) := by
  intro l
  induction l with
  | nil => intro _ i; rfl
  | cons op rest ih =>
    intro hsup i
    have hrest : ∀ op ∈ rest, supported op.type = true :=
      fun o ho => hsup o (List.mem_cons_of_mem op ho)
    have hs : supported op.type = true := hsup op (List.mem_cons_self op rest)
    obtain ⟨t, k, v⟩ := op
    cases t with
    | PUT => simp [replayOps, hok i, ih hrest (i + 1), opEvent]
    | MERGE => simp [replayOps, hok i, ih hrest (i + 1), opEvent]
    | DELETE => simp [replayOps, hok i, ih hrest (i + 1), opEvent]
    | DELETE_RANGE => simp [replayOps, hok i, ih hrest (i + 1), opEvent]
    | OTHER n => simp [supported] at hs

theorem replayOps_early (env : Env) (hok : ∀ i, env.opOk i = true) :
    ∀ (pre : List DBOperation) (u : DBOperation) (post : List DBOperation),
      (∀ op ∈ pre, supported op.type = true) → supported u.type = false →
      ∀ i, replayOps env (pre ++ u :: post) i =
        (ReplayOut.earlyRet, pre.map opEvent ++ [Event.logUnsupported u.type]) := by
  intro pre
  induction pre with
  | nil =>
    intro u post _ hu i
    obtain ⟨t, k, v⟩ := u
    cases t with
    | OTHER n => simp [replayOps]
    | PUT => simp [supported] at hu
    | MERGE => simp [supported] at hu
    | DELETE => simp [supported] at hu
    | DELETE_RANGE => simp [supported] at hu
  | cons op pre' ih =>
    intro u post hpre hu i
    have hpre' : ∀ o ∈ pre', supported o.type = true :=
      fun o ho => hpre o (List.mem_cons_of_mem op ho)
    have hs : supported op.type = true := hpre op (List.mem_cons_self op pre')
    obtain ⟨t, k, v⟩ := op
    cases t with
    | PUT => simp [replayOps, hok i, ih u post hpre' hu (i + 1), opEvent]
    | MERGE => simp [replayOps, hok i, ih u post hpre' hu (i + 1), opEvent]
    | DELETE => simp [replayOps, hok i, ih u post hpre' hu (i + 1), opEvent]
    | DELETE_RANGE => simp [replayOps, hok i, ih u post hpre' hu (i + 1), opEvent]
    | OTHER n => simp [supported] at hs

theorem opEvent_supported_ne (op : DBOperation) (hs : supported op.type = true) :
    opEvent op ≠ Event.getTestDirectory ∧
    (∀ s, opEvent op ≠ Event.writerOpen s) ∧
    opEvent op ≠ Event.finish ∧
    (∀ s, opEvent op ≠ Event.readerOpen s) ∧
    opEvent op ≠ Event.verifyChecksum ∧
    (∀ s, opEvent op ≠ Event.removeFile s) ∧
    opEvent op ≠ Event.logError ∧
    (∀ t, opEvent op ≠ Event.logUnsupported t) := by
  obtain ⟨t, k, v⟩ := op
  cases t <;> simp [opEvent, supported] at hs ⊢

/-! ### Shape of `fuzzerBody` in each control-flow leaf -/

theorem fuzzerBody_getDir_fail (env : Env) (input : List DBOperation)
    (hne : input ≠ []) (hg : env.getDirOk = false) :
    fuzzerBody env input =
      (Outcome.aborted, [Event.getTestDirectory, Event.logError]) := by
  cases input with
  | nil => exact absurd rfl hne
  | cons a rest => simp [fuzzerBody, CHECK_OK, hg]

theorem fuzzerBody_writerOpen_fail (env : Env) (input : List DBOperation)
    (hne : input ≠ []) (hg : env.getDirOk = true) (hw : env.writerOpenOk = false) :
    fuzzerBody env input =
      (Outcome.aborted,
        [Event.getTestDirectory, Event.writerOpen (sstPath env), Event.logError]) := by
  cases input with
  | nil => exact absurd rfl hne
  | cons a rest => simp [fuzzerBody, CHECK_OK, hg, hw]

theorem fuzzerBody_replay_aborted (env : Env) (input : List DBOperation)
    (hne : input ≠ []) (hg : env.getDirOk = true) (hw : env.writerOpenOk = true)
    (hr : (replayOps env input 0).1 = ReplayOut.aborted) :
    fuzzerBody env input =
      (Outcome.aborted,
        Event.getTestDirectory :: Event.writerOpen (sstPath env) ::
          (replayOps env input 0).2) := by
  cases input with
  | nil => exact absurd rfl hne
  | cons a rest => simp [fuzzerBody, CHECK_OK, hg, hw, hr]

theorem fuzzerBody_replay_early (env : Env) (input : List DBOperation)
    (hne : input ≠ []) (hg : env.getDirOk = true) (hw : env.writerOpenOk = true)
    (hr : (replayOps env input 0).1 = ReplayOut.earlyRet) :
    fuzzerBody env input =
      (Outcome.returned,
        Event.getTestDirectory :: Event.writerOpen (sstPath env) ::
          (replayOps env input 0).2) := by
  cases input with
  | nil => exact absurd rfl hne
  | cons a rest => simp [fuzzerBody, CHECK_OK, hg, hw, hr]

theorem fuzzerBody_finish_fail (env : Env) (input : List DBOperation)
    (hne : input ≠ []) (hg : env.getDirOk = true) (hw : env.writerOpenOk = true)
    (hr : (replayOps env input 0).1 = ReplayOut.ok) (hf : env.finishOk = false) :
    fuzzerBody env input =
      (Outcome.aborted,
        Event.getTestDirectory :: Event.writerOpen (sstPath env) ::
          ((replayOps env input 0).2 ++ [Event.finish, Event.logError])) := by
  cases input with
  | nil => exact absurd rfl hne
  | cons a rest => simp [fuzzerBody, CHECK_OK, hg, hw, hr, hf]

theorem fuzzerBody_reader_fail (env : Env) (input : List DBOperation)
    (hne : input ≠ []) (hg : env.getDirOk = true) (hw : env.writerOpenOk = true)
    (hr : (replayOps env input 0).1 = ReplayOut.ok) (hf : env.finishOk = true)
    (hro : env.readerOpenOk = false) :
    fuzzerBody env input =
      (Outcome.aborted,
        Event.getTestDirectory :: Event.writerOpen (sstPath env) ::
          ((replayOps env input 0).2 ++
            [Event.finish, Event.readerOpen (sstPath env), Event.logError])) := by
  cases input with
  | nil => exact absurd rfl hne
  | cons a rest => simp [fuzzerBody, CHECK_OK, hg, hw, hr, hf, hro]

theorem fuzzerBody_verify_fail (env : Env) (input : List DBOperation)
    (hne : input ≠ []) (hg : env.getDirOk = true) (hw : env.writerOpenOk = true)
    (hr : (replayOps env input 0).1 = ReplayOut.ok) (hf : env.finishOk = true)
    (hro : env.readerOpenOk = true) (hv : env.verifyOk = false) :
    fuzzerBody env input =
      (Outcome.aborted,
        Event.getTestDirectory :: Event.writerOpen (sstPath env) ::
          ((replayOps env input 0).2 ++
            [Event.finish, Event.readerOpen (sstPath env), Event.verifyChecksum,
              Event.logError])) := by
  cases input with
  | nil => exact absurd rfl hne
  | cons a rest => simp [fuzzerBody, CHECK_OK, hg, hw, hr, hf, hro, hv]

theorem fuzzerBody_success (env : Env) (input : List DBOperation)
    (hne : input ≠ []) (hg : env.getDirOk = true) (hw : env.writerOpenOk = true)
    (hr : (replayOps env input 0).1 = ReplayOut.ok) (hf : env.finishOk = true)
    (hro : env.readerOpenOk = true) (hv : env.verifyOk = true) :
    fuzzerBody env input =
      (Outcome.returned,
        Event.getTestDirectory :: Event.writerOpen (sstPath env) ::
          ((replayOps env input 0).2 ++
            [Event.finish, Event.readerOpen (sstPath env), Event.verifyChecksum,
              Event.removeFile (sstPath env)])) := by
  cases input with
  | nil => exact absurd rfl hne
  | cons a rest => simp [fuzzerBody, CHECK_OK, hg, hw, hr, hf, hro, hv]

theorem replayOps_not_early (env : Env) :
    ∀ (l : List DBOperation) (j : Nat), (∀ op ∈ l, supported op.type = true) →
      (replayOps env l j).1 ≠ ReplayOut.earlyRet := by
  intro l
  induction l with
  | nil => intro j _; simp [replayOps]
  | cons op rest ih =>
    intro j hsup
    have hrest : ∀ o ∈ rest, supported o.type = true :=
      fun o ho => hsup o (List.mem_cons_of_mem op ho)
    have hs : supported op.type = true := hsup op (List.mem_cons_self op rest)
    obtain ⟨t, k, v⟩ := op
    cases t <;> by_cases hok : env.opOk j <;>
      simp [replayOps, hok, supported, ih j.succ hrest] at hs ⊢

theorem replayOps_abort_of_bad (env : Env) :
    ∀ (l : List DBOperation) (j : Nat), (∀ op ∈ l, supported op.type = true) →
      (∃ i, i < l.length ∧ env.opOk (j + i) = false) →
      (replayOps env l j).1 = ReplayOut.aborted := by
  intro l
  induction l with
  | nil => intro j _ hbad; obtain ⟨i, hi, _⟩ := hbad; simp at hi
  | cons op rest ih =>
    intro j hsup hbad
    have hrest : ∀ o ∈ rest, supported o.type = true :=
      fun o ho => hsup o (List.mem_cons_of_mem op ho)
    have hs : supported op.type = true := hsup op (List.mem_cons_self op rest)
    by_cases hok : env.opOk j
    · have hbad' : ∃ i, i < rest.length ∧ env.opOk (j + 1 + i) = false := by
        obtain ⟨i, hi, hb⟩ := hbad
        cases i with
        | zero => rw [Nat.add_zero] at hb; rw [hok] at hb; exact absurd hb (by decide)
        | succ i' =>
          refine ⟨i', by simpa using hi, ?_⟩
          have : j + 1 + i' = j + (i' + 1) := by omega
          rw [this]
          exact hb
      obtain ⟨t, k, v⟩ := op
      cases t <;>
        simp [replayOps, hok, supported, ih (j + 1) hrest hbad'] at hs ⊢
    · obtain ⟨t, k, v⟩ := op
      cases t <;> simp [replayOps, hok, supported] at hs ⊢

theorem envOk_allOk : envOk.allOk :=
  ⟨rfl, rfl, fun _ => rfl, rfl, rfl, rfl⟩

theorem fuzzerBody_allOk_trace (env : Env) (input : List DBOperation)
    (hall : env.allOk) (hsup : ∀ op ∈ input, supported op.type = true)
    (hne : input ≠ []) :
    fuzzerBody env input =
      (Outcome.returned,
        Event.getTestDirectory :: Event.writerOpen (sstPath env) ::
          (input.map opEvent ++
            [Event.finish, Event.readerOpen (sstPath env), Event.verifyChecksum,
              Event.removeFile (sstPath env)])) := by
  obtain ⟨hg, hw, hok, hf, hro, hv⟩ := hall
  have hrep := replayOps_all_ok env hok input hsup 0
  rw [fuzzerBody_success env input hne hg hw (by rw [hrep]) hf hro hv]
  simp [hrep]

theorem fuzzerBody_early_trace (env : Env) (pre : List DBOperation)
    (u : DBOperation) (post : List DBOperation) (hall : env.allOk)
    (hpre : ∀ op ∈ pre, supported op.type = true)
    (hu : supported u.type = false) :
    fuzzerBody env (pre ++ u :: post) =
      (Outcome.returned,
        Event.getTestDirectory :: Event.writerOpen (sstPath env) ::
          (pre.map opEvent ++ [Event.logUnsupported u.type])) := by
  obtain ⟨hg, hw, hok, _, _, _⟩ := hall
  have hrep := replayOps_early env hok pre u post hpre hu 0
  have hne : pre ++ u :: post ≠ [] := by simp
  rw [fuzzerBody_replay_early env _ hne hg hw (by rw [hrep])]
  simp [hrep]

/-- **C4.** Any failing consumed capability — the temporary-directory
lookup, the writer open, any per-operation replay call
(Put/Merge/Delete/DeleteRange), finish, the reader open, or the checksum
verify — makes the harness abort, and an aborting run logs the failure
detail as its final external effect, so no later step of the iteration is
reached. -/
theorem fuzzer_abort_on_failure (env : Env) (input : List DBOperation) :
    (input ≠ [] → (env.getDirOk = false ∨ env.writerOpenOk = false) →
      (fuzzerBody env input).1 = Outcome.aborted) ∧
    (input ≠ [] → (∀ op ∈ input, supported op.type = true) →
      ((∃ i, i < input.length ∧ env.opOk i = false) ∨ env.finishOk = false ∨
        env.readerOpenOk = false ∨ env.verifyOk = false) →
      (fuzzerBody env input).1 = Outcome.aborted) ∧
    ((fuzzerBody env input).1 = Outcome.aborted →
      ∃ p, (fuzzerBody env input).2 = p ++ [Event.logError]) := by
  refine ⟨?_, ?_, ?_⟩
  · intro hne hfail
    cases hg : env.getDirOk
    · rw [fuzzerBody_getDir_fail env input hne hg]
    · rcases hfail with hg' | hw
      · rw [hg] at hg'
        exact absurd hg' (by decide)
      · rw [fuzzerBody_writerOpen_fail env input hne hg hw]
  · intro hne hsup hfail
    cases hg : env.getDirOk
    · rw [fuzzerBody_getDir_fail env input hne hg]
    · cases hw : env.writerOpenOk
      · rw [fuzzerBody_writerOpen_fail env input hne hg hw]
      · rcases hfail with hbad | hf | hro | hv
        · have hbad' : ∃ i, i < input.length ∧ env.opOk (0 + i) = false := by
            obtain ⟨i, hi, hb⟩ := hbad
            exact ⟨i, hi, by simpa using hb⟩
          have hr := replayOps_abort_of_bad env input 0 hsup hbad'
          rw [fuzzerBody_replay_aborted env input hne hg hw hr]
        · cases hr3 : (replayOps env input 0).1 with
          | ok => rw [fuzzerBody_finish_fail env input hne hg hw hr3 hf]
          | aborted => rw [fuzzerBody_replay_aborted env input hne hg hw hr3]
          | earlyRet => exact absurd hr3 (replayOps_not_early env input 0 hsup)
        · cases hr3 : (replayOps env input 0).1 with
          | ok =>
            cases hfin : env.finishOk
            · rw [fuzzerBody_finish_fail env input hne hg hw hr3 hfin]
            · rw [fuzzerBody_reader_fail env input hne hg hw hr3 hfin hro]
          | aborted => rw [fuzzerBody_replay_aborted env input hne hg hw hr3]
          | earlyRet => exact absurd hr3 (replayOps_not_early env input 0 hsup)
        · cases hr3 : (replayOps env input 0).1 with
          | ok =>
            cases hfin : env.finishOk
            · rw [fuzzerBody_finish_fail env input hne hg hw hr3 hfin]
            · cases hrdr : env.readerOpenOk
              · rw [fuzzerBody_reader_fail env input hne hg hw hr3 hfin hrdr]
              · rw [fuzzerBody_verify_fail env input hne hg hw hr3 hfin hrdr hv]
          | aborted => rw [fuzzerBody_replay_aborted env input hne hg hw hr3]
          | earlyRet => exact absurd hr3 (replayOps_not_early env input 0 hsup)
  · intro hab
    by_cases hne : input = []
    · subst hne
      simp [fuzzerBody] at hab
    · cases hg : env.getDirOk
      · rw [fuzzerBody_getDir_fail env input hne hg]
        exact ⟨[Event.getTestDirectory], rfl⟩
      · cases hw : env.writerOpenOk
        · rw [fuzzerBody_writerOpen_fail env input hne hg hw]
          exact ⟨[Event.getTestDirectory, Event.writerOpen (sstPath env)], rfl⟩
        · cases hr3 : (replayOps env input 0).1 with
          | ok =>
            cases hfin : env.finishOk
            · rw [fuzzerBody_finish_fail env input hne hg hw hr3 hfin]
              exact ⟨Event.getTestDirectory :: Event.writerOpen (sstPath env) ::
                ((replayOps env input 0).2 ++ [Event.finish]), by simp⟩
            · cases hrdr : env.readerOpenOk
              · rw [fuzzerBody_reader_fail env input hne hg hw hr3 hfin hrdr]
                exact ⟨Event.getTestDirectory :: Event.writerOpen (sstPath env) ::
                  ((replayOps env input 0).2 ++
                    [Event.finish, Event.readerOpen (sstPath env)]), by simp⟩
              · cases hv : env.verifyOk
                · rw [fuzzerBody_verify_fail env input hne hg hw hr3 hfin hrdr hv]
                  exact ⟨Event.getTestDirectory :: Event.writerOpen (sstPath env) ::
                    ((replayOps env input 0).2 ++
                      [Event.finish, Event.readerOpen (sstPath env),
                        Event.verifyChecksum]), by simp⟩
                · rw [fuzzerBody_success env input hne hg hw hr3 hfin hrdr hv] at hab
                  simp at hab
          | aborted =>
            rw [fuzzerBody_replay_aborted env input hne hg hw hr3]
            obtain ⟨p, hp⟩ := replayOps_aborted_trace env input 0 hr3
            exact ⟨Event.getTestDirectory :: Event.writerOpen (sstPath env) :: p,
              by simp [hp]⟩
          | earlyRet =>
            rw [fuzzerBody_replay_early env input hne hg hw hr3] at hab
            simp at hab

theorem fuzzer_abort_on_failure_witness :
    (fuzzerBody ⟨false, "tmp", true, fun _ => true, true, true, true⟩
        [(⟨OpType.PUT, [0], [0]⟩ : DBOperation)]).1 = Outcome.aborted ∧
    ∃ p, (fuzzerBody ⟨false, "tmp", true, fun _ => true, true, true, true⟩
        [(⟨OpType.PUT, [0], [0]⟩ : DBOperation)]).2 = p ++ [Event.logError] := by
  have h := fuzzer_abort_on_failure
    ⟨false, "tmp", true, fun _ => true, true, true, true⟩
    [(⟨OpType.PUT, [0], [0]⟩ : DBOperation)]
  have h1 := h.1 (by simp) (Or.inl rfl)
  exact ⟨h1, h.2.2 h1⟩

/-- **C5.** A sequence whose first unsupported-type operation follows a
supported prefix makes the harness log the unrecognized type and return
normally right there: the trace ends at the log, nothing after that
operation is processed, and the process does not abort. -/
theorem fuzzer_unsupported_early_return (env : Env) (pre : List DBOperation)
    (u : DBOperation) (post : List DBOperation) (hall : env.allOk)
    (hpre : ∀ op ∈ pre, supported op.type = true)
    (hu : supported u.type = false) :
    fuzzerBody env (pre ++ u :: post) =
      (Outcome.returned,
        Event.getTestDirectory :: Event.writerOpen (sstPath env) ::
          (pre.map opEvent ++ [Event.logUnsupported u.type])) :=
  fuzzerBody_early_trace env pre u post hall hpre hu

theorem fuzzer_unsupported_early_return_witness :
    fuzzerBody envOk
        ([(⟨OpType.PUT, [0], [1]⟩ : DBOperation)] ++
          (⟨OpType.OTHER 7, [2], [3]⟩ : DBOperation) ::
            [(⟨OpType.PUT, [4], [5]⟩ : DBOperation)]) =
      (Outcome.returned,
        Event.getTestDirectory :: Event.writerOpen (sstPath envOk) ::
          ([(⟨OpType.PUT, [0], [1]⟩ : DBOperation)].map opEvent ++
            [Event.logUnsupported (OpType.OTHER 7)])) :=
  fuzzer_unsupported_early_return envOk [⟨OpType.PUT, [0], [1]⟩]
    ⟨OpType.OTHER 7, [2], [3]⟩ [⟨OpType.PUT, [4], [5]⟩] envOk_allOk
    (by decide) (by decide)

/-- **C6.** An empty operation sequence returns normally and immediately:
no external capability is consumed and no effect is performed. -/
theorem fuzzer_empty_noop (env : Env) :
    fuzzerBody env [] = (Outcome.returned, []) := rfl

/-- **C7.** With every capability succeeding, a non-empty all-supported
sequence is replayed into the writer in order, exactly once per operation,
each operation dispatched by type to the corresponding writer call
(PUT ↦ put, MERGE ↦ merge, DELETE ↦ delete, DELETE_RANGE ↦ range-delete
with start `key` and exclusive end `value`). -/
theorem fuzzer_replay_dispatch (env : Env) (input : List DBOperation)
    (hall : env.allOk) (hsup : ∀ op ∈ input, supported op.type = true)
    (hne : input ≠ []) :
    fuzzerBody env input =
      (Outcome.returned,
        Event.getTestDirectory :: Event.writerOpen (sstPath env) ::
          (input.map opEvent ++
            [Event.finish, Event.readerOpen (sstPath env), Event.verifyChecksum,
              Event.removeFile (sstPath env)])) :=
  fuzzerBody_allOk_trace env input hall hsup hne

theorem fuzzer_replay_dispatch_witness :
    fuzzerBody envOk
        [(⟨OpType.PUT, [0], [1]⟩ : DBOperation), ⟨OpType.DELETE_RANGE, [2], [3]⟩] =
      (Outcome.returned,
        Event.getTestDirectory :: Event.writerOpen (sstPath envOk) ::
          ([(⟨OpType.PUT, [0], [1]⟩ : DBOperation),
              ⟨OpType.DELETE_RANGE, [2], [3]⟩].map opEvent ++
            [Event.finish, Event.readerOpen (sstPath envOk), Event.verifyChecksum,
              Event.removeFile (sstPath envOk)])) :=
  fuzzer_replay_dispatch envOk
    [⟨OpType.PUT, [0], [1]⟩, ⟨OpType.DELETE_RANGE, [2], [3]⟩]
    envOk_allOk (by decide) (by decide)

/-- **C8.** Whenever the checksum verification is performed and succeeds,
the artifact file is deleted as the final effect before returning; and the
artifact is deleted only on that path — a run that never reaches a
successful verify performs no file deletion. -/
theorem fuzzer_cleanup_iff_verify (env : Env) (input : List DBOperation) :
    ((Event.verifyChecksum ∈ (fuzzerBody env input).2 ∧ env.verifyOk = true) →
      (fuzzerBody env input).1 = Outcome.returned ∧
        ∃ p, (fuzzerBody env input).2 = p ++ [Event.removeFile (sstPath env)]) ∧
    (∀ s, Event.removeFile s ∈ (fuzzerBody env input).2 →
      s = sstPath env ∧ (fuzzerBody env input).1 = Outcome.returned ∧
        env.verifyOk = true ∧ Event.verifyChecksum ∈ (fuzzerBody env input).2) := by
  obtain ⟨hn1, hn2, hn3, hn4, hn5, hn6⟩ := replayOps_no_tail_events env input 0
  by_cases hne : input = []
  · subst hne
    constructor
    · rintro ⟨hv, _⟩
      simp [fuzzerBody] at hv
    · intro s hs
      simp [fuzzerBody] at hs
  · cases hg : env.getDirOk
    · rw [fuzzerBody_getDir_fail env input hne hg]
      constructor
      · rintro ⟨hv, _⟩
        simp at hv
      · intro s hs
        simp at hs
    · cases hw : env.writerOpenOk
      · rw [fuzzerBody_writerOpen_fail env input hne hg hw]
        constructor
        · rintro ⟨hv, _⟩
          simp at hv
        · intro s hs
          simp at hs
      · cases hr3 : (replayOps env input 0).1 with
        | ok =>
          cases hfin : env.finishOk
          · rw [fuzzerBody_finish_fail env input hne hg hw hr3 hfin]
            constructor
            · rintro ⟨hv, _⟩
              simp [hn5] at hv
            · intro s hs
              simp [hn6 s] at hs
          · cases hrdr : env.readerOpenOk
            · rw [fuzzerBody_reader_fail env input hne hg hw hr3 hfin hrdr]
              constructor
              · rintro ⟨hv, _⟩
                simp [hn5] at hv
              · intro s hs
                simp [hn6 s] at hs
            · cases hv : env.verifyOk
              · rw [fuzzerBody_verify_fail env input hne hg hw hr3 hfin hrdr hv]
                constructor
                · rintro ⟨_, hv'⟩
                  exact absurd hv' (by decide)
                · intro s hs
                  simp [hn6 s] at hs
              · rw [fuzzerBody_success env input hne hg hw hr3 hfin hrdr hv]
                constructor
                · intro _
                  refine ⟨rfl, ?_⟩
                  exact ⟨Event.getTestDirectory :: Event.writerOpen (sstPath env) ::
                    ((replayOps env input 0).2 ++
                      [Event.finish, Event.readerOpen (sstPath env),
                        Event.verifyChecksum]), by simp⟩
                · intro s hs
                  simp [hn6 s] at hs
                  subst hs
                  exact ⟨rfl, rfl, rfl, by simp⟩
        | aborted =>
          rw [fuzzerBody_replay_aborted env input hne hg hw hr3]
          constructor
          · rintro ⟨hv, _⟩
            simp [hn5] at hv
          · intro s hs
            simp [hn6 s] at hs
        | earlyRet =>
          rw [fuzzerBody_replay_early env input hne hg hw hr3]
          constructor
          · rintro ⟨hv, _⟩
            simp [hn5] at hv
          · intro s hs
            simp [hn6 s] at hs

theorem fuzzer_cleanup_iff_verify_witness :
    (fuzzerBody envOk [(⟨OpType.PUT, [0], [1]⟩ : DBOperation)]).1 = Outcome.returned ∧
    ∃ p, (fuzzerBody envOk [(⟨OpType.PUT, [0], [1]⟩ : DBOperation)]).2 =
      p ++ [Event.removeFile (sstPath envOk)] := by
  refine (fuzzer_cleanup_iff_verify envOk [⟨OpType.PUT, [0], [1]⟩]).1 ⟨?_, rfl⟩
  decide

/-- **C10.** When the first unsupported-type operation follows a valid
prefix, the early return after the prefix skips every later step: the
writer was opened (the artifact was created) but finish is never called,
no reader is opened, no checksum is verified, and no file is deleted. -/
theorem fuzzer_unsupported_skips_tail (env : Env) (pre : List DBOperation)
    (u : DBOperation) (post : List DBOperation) (hall : env.allOk)
    (hpre : ∀ op ∈ pre, supported op.type = true)
    (hu : supported u.type = false) :
    (fuzzerBody env (pre ++ u :: post)).1 = Outcome.returned ∧
    Event.writerOpen (sstPath env) ∈ (fuzzerBody env (pre ++ u :: post)).2 ∧
    Event.finish ∉ (fuzzerBody env (pre ++ u :: post)).2 ∧
    (∀ s, Event.readerOpen s ∉ (fuzzerBody env (pre ++ u :: post)).2) ∧
    Event.verifyChecksum ∉ (fuzzerBody env (pre ++ u :: post)).2 ∧
    (∀ s, Event.removeFile s ∉ (fuzzerBody env (pre ++ u :: post)).2) := by
  have htr := fuzzerBody_early_trace env pre u post hall hpre hu
  rw [htr]
  refine ⟨rfl, by simp, ?_, ?_, ?_, ?_⟩
  · intro hmem
    simp at hmem
    obtain ⟨op, hop, heq⟩ := hmem
    exact (opEvent_supported_ne op (hpre op hop)).2.2.1 heq
  · intro s hmem
    simp at hmem
    obtain ⟨op, hop, heq⟩ := hmem
    exact (opEvent_supported_ne op (hpre op hop)).2.2.2.1 s heq
  · intro hmem
    simp at hmem
    obtain ⟨op, hop, heq⟩ := hmem
    exact (opEvent_supported_ne op (hpre op hop)).2.2.2.2.1 heq
  · intro s hmem
    simp at hmem
    obtain ⟨op, hop, heq⟩ := hmem
    exact (opEvent_supported_ne op (hpre op hop)).2.2.2.2.2.1 s heq

theorem fuzzer_unsupported_skips_tail_witness :
    (fuzzerBody envOk
        ([(⟨OpType.PUT, [0], [1]⟩ : DBOperation)] ++
          (⟨OpType.OTHER 9, [2], [3]⟩ : DBOperation) ::
            [(⟨OpType.DELETE, [4], []⟩ : DBOperation)])).1 = Outcome.returned ∧
    Event.writerOpen (sstPath envOk) ∈ (fuzzerBody envOk
        ([(⟨OpType.PUT, [0], [1]⟩ : DBOperation)] ++
          (⟨OpType.OTHER 9, [2], [3]⟩ : DBOperation) ::
            [(⟨OpType.DELETE, [4], []⟩ : DBOperation)])).2 ∧
    Event.finish ∉ (fuzzerBody envOk
        ([(⟨OpType.PUT, [0], [1]⟩ : DBOperation)] ++
          (⟨OpType.OTHER 9, [2], [3]⟩ : DBOperation) ::
            [(⟨OpType.DELETE, [4], []⟩ : DBOperation)])).2 ∧
    (∀ s, Event.readerOpen s ∉ (fuzzerBody envOk
        ([(⟨OpType.PUT, [0], [1]⟩ : DBOperation)] ++
          (⟨OpType.OTHER 9, [2], [3]⟩ : DBOperation) ::
            [(⟨OpType.DELETE, [4], []⟩ : DBOperation)])).2) ∧
    Event.verifyChecksum ∉ (fuzzerBody envOk
        ([(⟨OpType.PUT, [0], [1]⟩ : DBOperation)] ++
          (⟨OpType.OTHER 9, [2], [3]⟩ : DBOperation) ::
            [(⟨OpType.DELETE, [4], []⟩ : DBOperation)])).2 ∧
    (∀ s, Event.removeFile s ∉ (fuzzerBody envOk
        ([(⟨OpType.PUT, [0], [1]⟩ : DBOperation)] ++
          (⟨OpType.OTHER 9, [2], [3]⟩ : DBOperation) ::
            [(⟨OpType.DELETE, [4], []⟩ : DBOperation)])).2) :=
  fuzzer_unsupported_skips_tail envOk [⟨OpType.PUT, [0], [1]⟩]
    ⟨OpType.OTHER 9, [2], [3]⟩ [⟨OpType.DELETE, [4], []⟩] envOk_allOk
    (by decide) (by decide)

end SstFuzz
